import Mathlib

/-!
# Verification of `goproperties` (`properties.go`)

A shallow embedding of the `.properties` parser from `properties.go`:

* `decodeString` — the escape-sequence decoder (`decodeString`, lines 133-198);
* `scanKey` / `scanValueStart` — the key/value split inside `Load` (lines 82-118);
* `LR` / `readLineLoop` / `readLine` — the buffered logical-line reader
  (`lineReader.readLine`, lines 224-339), with the 1024-byte raw buffer
  modelled explicitly;
* `loadLoop` / `Load` — the top-level loader (lines 69-130).

Byte strings are modelled as `List Nat` (each element a byte value).
Go's bounds-checked indexing is modelled by an explicit `panicked` outcome:
`s[i]` with `i ≥ len(s)` is a runtime panic in Go, never a value.

The input source (`io.Reader`) is modelled as the list of bytes it has not
yet delivered.  `io.ReadFull(r, buf)` with `len(buf) = 1024` then returns
`(0, io.EOF)` on an empty source, `(n, io.ErrUnexpectedEOF)` when only
`0 < n < 1024` bytes remain, and `(1024, nil)` otherwise; the three cases
are transcribed in `refill1`/`refill2` below exactly as the two refill
sites of `readLine` consume them.
-/

set_option autoImplicit false

namespace GoProperties

/-- Outcome of a Go computation that can return a value, return the
`ErrMalformedUtf8Encoding` error, or abort with a runtime panic
(out-of-range index / `make` with negative length). -/
inductive GoResult (α : Type) where
  | panicked : GoResult α
  | errored : GoResult α
  | ok : α → GoResult α
deriving Repr, DecidableEq

/-- One step of the hex-digit accumulator in `decodeString`
(`rune = (rune << 4) + ...`, lines 144-156): decimal digits, then `a`-`f`,
then `A`-`F`, otherwise the malformed-encoding error. -/
def hexStep (r c : Nat) : GoResult Nat :=
  if 48 ≤ c ∧ c ≤ 57 then .ok (r * 16 + (c - 48))
  else if 97 ≤ c ∧ c ≤ 102 then .ok (r * 16 + 10 + (c - 97))
  else if 65 ≤ c ∧ c ≤ 70 then .ok (r * 16 + 10 + (c - 65))
  else .errored

/-- The `for j := 0; j < 4; j++` loop of `decodeString` (lines 143-158).
Reading past the end of the input (`in[i]` with `i = len(in)`) is a Go
index-out-of-range panic. -/
def readHex (r : Nat) (j : Nat) (l : List Nat) : GoResult Nat :=
  match j, l with
  | 0, _ => .ok r
  | _ + 1, [] => .panicked
  | j + 1, c :: rest =>
    match hexStep r c with
    | .ok r2 => readHex r2 j rest
    | .errored => .errored
    | .panicked => .panicked

/-- `utf8.RuneLen`/`utf8.EncodeRune` for code points `0 ≤ r ≤ 0xFFFF`, as in
the Go distribution this file compiles against.  The `Makefile` is a
pre-Go1 `Make.pkg` build and `decodeString` passes the `int` variable
`rune` to `utf8.RuneLen`/`utf8.EncodeRune` with the modern argument order,
which is well-typed exactly in the releases where `rune` was an alias of
`int` (between the 2011-10 renaming and Go 1); in those releases the
`unicode/utf8` package did not reject surrogate halves (that check was
added in Go 1.1), so every value produced by four hex digits is encoded by
the plain length-1/2/3 UTF-8 byte pattern below, and
`utf8.RuneLen r = (utf8EncodeRune r).length`, so the `make`/`EncodeRune`
pair in lines 159-164 copies exactly these bytes. -/
def utf8EncodeRune (r : Nat) : List Nat :=
  if r < 128 then [r]
  else if r < 2048 then [192 + r / 64, 128 + r % 64]
  else [224 + r / 4096, 128 + r / 64 % 64, 128 + r % 64]

/-- The continuation of a `\uXXXX` escape (lines 140-165): on a clean
four-digit read, emit the encoded rune and splice in the decoding of the
remainder; a hex-loop error or panic aborts before the remainder is
relevant. -/
def decodeUStep (hexRes : GoResult Nat) (tailRes : GoResult (List Nat)) :
    GoResult (List Nat) :=
  match hexRes with
  | .panicked => .panicked
  | .errored => .errored
  | .ok r =>
    match tailRes with
    | .ok out => .ok (utf8EncodeRune r ++ out)
    | .errored => .errored
    | .panicked => .panicked

/-- Emitting one decoded byte before the decoding of the remainder
(the `out[o] = ...; o++` writes of `decodeString`). -/
def decodeEmit (b : Nat) (tailRes : GoResult (List Nat)) : GoResult (List Nat) :=
  match tailRes with
  | .ok out => .ok (b :: out)
  | .errored => .errored
  | .panicked => .panicked

/-- The body of `decodeString` (lines 136-195): a left-to-right scan; a
backslash consumes the next character (`i++` then `switch in[i]`, an
out-of-range read — a panic — when the backslash is the last byte);
`u` starts the four-hex-digit escape, `t`/`r`/`n`/`f` produce the control
bytes, and any other escaped character is emitted literally.  After a
successful hex read, `i` has advanced past exactly four digits, so the
scan resumes there; the catch-all `.panicked` is unreachable, because
`readHex` only succeeds when four bytes are present (when it fails,
`decodeUStep` ignores its second argument, so the branch choice is
immaterial there). -/
def decodeLoop : List Nat → GoResult (List Nat)
  | [] => .ok []
  | c :: rest =>
    if c = 92 then
      match rest with
      | [] => .panicked
      | d :: rest2 =>
        if d = 117 then
          decodeUStep (readHex 0 4 rest2)
            (match rest2 with
             | _ :: _ :: _ :: _ :: rest3 => decodeLoop rest3
             | _ => .panicked)
        else
          decodeEmit
            (if d = 116 then 9
             else if d = 114 then 13
             else if d = 110 then 10
             else if d = 102 then 12
             else d)
            (decodeLoop rest2)
    else
      decodeEmit c (decodeLoop rest)

/-- `decodeString` (lines 133-198).  The output buffer `out` never
overflows: each consumed byte contributes at most one output byte except
`\uXXXX`, which consumes six and contributes at most three. -/
def decodeString (s : List Nat) : GoResult (List Nat) :=
  decodeLoop s

/-! ## Record parsing: the key/value split inside `Load` (lines 82-118) -/

/-- The key scan of `Load` (lines 87-106): starting at index `i` with the
`precedingBackslash` toggle `p`, walk the rest of the line; an unescaped
`=`/`:` ends the key with a separator (`hasSep = true`), an unescaped
space/tab/form-feed ends it without one; a backslash flips the toggle,
every other byte clears it.  Returns `(keyLen, valueStart, hasSep)`; when
the scan exhausts the line, `valueStart` keeps its initial value `len(s)`. -/
def scanKey (rem : List Nat) (i : Nat) (p : Bool) : Nat × Nat × Bool :=
  match rem with
  | [] => (i, i, false)
  | c :: rest =>
    if (c = 61 ∨ c = 58) ∧ ¬p then (i, i + 1, true)
    else if (c = 32 ∨ c = 9 ∨ c = 12) ∧ ¬p then (i, i + 1, false)
    else scanKey rest (i + 1) (if c = 92 then !p else false)

/-- The value-start scan of `Load` (lines 108-118): skip whitespace after
the key; if no separator was seen yet, consume a single `=`/`:` and keep
skipping whitespace; stop at the first other non-whitespace byte. -/
def scanValueStart (rem : List Nat) (vs : Nat) (hasSep : Bool) : Nat :=
  match rem with
  | [] => vs
  | c :: rest =>
    if c ≠ 32 ∧ c ≠ 9 ∧ c ≠ 12 then
      if ¬hasSep ∧ (c = 61 ∨ c = 58) then scanValueStart rest (vs + 1) true
      else vs
    else scanValueStart rest (vs + 1) hasSep

/-- The property mapping `props`, modelled as an association list with
unique keys; `props[key] = value` overwrites in place or appends. -/
abbrev PropMap : Type := List (List Nat × List Nat)

/-- `props[key] = value` (line 127): last write wins. -/
def insertProp (m : PropMap) (k v : List Nat) : PropMap :=
  if m.any (fun e => e.1 = k) then
    m.map (fun e => if e.1 = k then (k, v) else e)
  else m ++ [(k, v)]

/-- Map lookup, for stating properties of the result. -/
def lookupProp (m : PropMap) (k : List Nat) : Option (List Nat) :=
  match m.find? (fun e => e.1 = k) with
  | some e => some e.2
  | none => none

/-- The per-line body of `Load` (lines 82-127): split the logical line `s`
into key and value spans, decode both, and insert the pair.  A decode
error makes `Load` return `(nil, err)` at once (lines 119-126). -/
def processLine (props : PropMap) (s : List Nat) : GoResult PropMap :=
  let r1 := scanKey s 0 false
  let vs := scanValueStart (s.drop r1.2.1) r1.2.1 r1.2.2
  match decodeString (s.take r1.1) with
  | .ok key =>
    match decodeString (s.drop vs) with
    | .ok value => .ok (insertProp props key value)
    | .errored => .errored
    | .panicked => .panicked
  | .errored => .errored
  | .panicked => .panicked

/-- Just the decode outcome of a logical line (the error/panic/success
classification of `processLine`, independent of the accumulated map). -/
def lineStatus (s : List Nat) : GoResult Unit :=
  let r1 := scanKey s 0 false
  let vs := scanValueStart (s.drop r1.2.1) r1.2.1 r1.2.2
  match decodeString (s.take r1.1) with
  | .ok _ =>
    match decodeString (s.drop vs) with
    | .ok _ => .ok ()
    | .errored => .errored
    | .panicked => .panicked
  | .errored => .errored
  | .panicked => .panicked

/-! ## The buffered logical-line reader (`lineReader`, lines 203-339)

The `lineReader` state is `reader` (the unread source), `buffer` (1024
bytes, of which `buffer[0:limit]` is filled), `offset` (the cursor) and
`exhausted`.  The cursor only ever moves forward and bytes are only read
at `buffer[offset]` with `offset < limit`, so the pair
(`buffer`/`limit`, `offset`) is represented by the unconsumed slice
`bufRest = buffer[offset:limit]`: the refill condition
`offset >= limit` is exactly `bufRest = []`, and
`char := buffer[offset]; offset++` is exactly taking the head of
`bufRest`.  The line buffer's capacity-doubling (lines 293-299) preserves
contents, so it is a plain list. -/

/-- `len(lr.buffer)`, fixed at creation (line 215). -/
def bufCap : Nat := 1024

/-- The `lineReader` state (lines 203-210): unread source bytes, the
unconsumed raw-buffer slice `buffer[offset:limit]`, and the `exhausted`
flag. -/
structure LR where
  input : List Nat
  bufRest : List Nat
  exhausted : Bool
deriving Repr, DecidableEq

/-- A fresh `lineReader` over a source that will deliver `input`
(`newLineReader`, lines 212-221: `limit = offset = 0`, so the slice is
empty). -/
def initLR (input : List Nat) : LR :=
  { input := input, bufRest := [], exhausted := false }

/-- Bytes left to process.  Every loop iteration of `readLine` consumes
exactly one, so this bounds the iteration count. -/
def lrMeasure (lr : LR) : Nat := lr.input.length + lr.bufRest.length

/-- One logical line (`(string, nil)`) or exhaustion (`("", io.EOF)`). -/
inductive ReadResult where
  | line : List Nat → ReadResult
  | eof : ReadResult
deriving Repr, DecidableEq

/-- Outcome of the refill-then-read step at the top of the read loop:
either the call returns (`done`), or the next byte `c` is consumed,
leaving source `input2` and slice `bufRest2`. -/
inductive Refill1 where
  | done : ReadResult × LR → Refill1
  | next : Nat → List Nat → List Nat → Refill1

/-- The first refill site plus the byte read that follows it (lines
238-262).  With the buffer slice empty, `io.ReadFull` yields `io.EOF` on
an empty source (lines 242-248: mark exhausted — `limit` becomes 0 — and
signal `io.EOF` if inside a comment, otherwise return the accumulated
bytes as the final line), `io.ErrUnexpectedEOF` when fewer than 1024
bytes remain (lines 249-254: signal `io.EOF` if inside a comment, without
marking the reader exhausted; otherwise `continue` with the partially
filled buffer), and no error on a full 1024-byte read.  When a byte is
available, `char := buffer[offset]; offset++` (lines 261-262). -/
def refill1 (input bufRest : List Nat) (ex : Bool) (acc : List Nat) (isCL : Bool) :
    Refill1 :=
  match bufRest with
  | c :: rest => .next c input rest
  | [] =>
    match input with
    | [] =>
      .done (if isCL then (.eof, ⟨[], [], true⟩) else (.line acc, ⟨[], [], true⟩))
    | c :: rest =>
      if input.length < bufCap then
        if isCL then .done (.eof, ⟨[], input, ex⟩)
        else .next c [] rest
      else
        .next c (rest.drop (bufCap - 1)) (rest.take (bufCap - 1))

/-- The second refill site, reached at an end-of-line byte on a non-empty
non-comment line (lines 311-322): both `io.EOF` and `io.ErrUnexpectedEOF`
mark the reader exhausted and make the current accumulated bytes the final
logical line (`.inl`); otherwise the loop continues (`.inr`) with the
(possibly refilled) source and slice. -/
def refill2 (input bufRest : List Nat) (ex : Bool) : LR ⊕ (List Nat × List Nat) :=
  match bufRest with
  | _ :: _ => .inr (input, bufRest)
  | [] =>
    match input with
    | [] => .inl ⟨[], [], true⟩
    | _ :: _ =>
      if input.length < bufCap then .inl ⟨[], input, true⟩
      else .inr (input.drop bufCap, input.take bufCap)

/-- The body of `readLine` (lines 238-336), transcribed branch for branch.
Parameters mirror the local state: `input`/`bufRest`/`ex` are the reader
fields, `acc` is the filled prefix of the line buffer
(`lineBuffer[0:nextCharIndex]`), and the six flags are `skipLF`,
`skipWhiteSpace`, `appendedLineBegin`, `isNewLine`, `isCommentLine`,
`precedingBackslash` (lines 231-236).

The source's `for {}` loop is modelled with a `fuel` parameter so the
function is structurally recursive and computable: every iteration
consumes one unprocessed byte (`refill1_next`, `refill2_inr`), so any
`fuel > lrMeasure` runs the loop to its `return` (`readLineLoop_congr`);
`readLine` passes exactly `lrMeasure + 1`, and the lemmas below assume
only a bound, never a fuel value.  The fuel-0 branch is dead code under
that bound. -/
def readLineLoop : Nat → List Nat → List Nat → Bool → List Nat →
    Bool → Bool → Bool → Bool → Bool → Bool → ReadResult × LR
  | 0, input, bufRest, ex, _, _, _, _, _, _, _ => (.eof, ⟨input, bufRest, ex⟩)
  | fuel + 1, input, bufRest, ex, acc, skipLF, skipWS, aLB, isNL, isCL, pBS =>
    match refill1 input bufRest ex acc isCL with
    | .done r => r
    | .next c input2 bufRest2 =>
      if skipLF ∧ c = 10 then
        -- lines 264-269: drop the \n of a \r\n pair
        readLineLoop fuel input2 bufRest2 ex acc false skipWS aLB isNL isCL pBS
      else if skipWS ∧ (c = 32 ∨ c = 9 ∨ c = 12) then
        -- lines 271-274: leading whitespace
        readLineLoop fuel input2 bufRest2 ex acc false skipWS aLB isNL isCL pBS
      else if skipWS ∧ aLB = false ∧ (c = 13 ∨ c = 10) then
        -- lines 275-277: blank-line terminators (not after a continuation)
        readLineLoop fuel input2 bufRest2 ex acc false skipWS aLB isNL isCL pBS
      else if isNL ∧ (c = 35 ∨ c = 33) then
        -- lines 282-287: comment marker at the start of a natural line
        readLineLoop fuel input2 bufRest2 ex acc false false
          (if skipWS then false else aLB) false true pBS
      else if c ≠ 10 ∧ c ≠ 13 then
        -- lines 290-301: append a content byte, toggle precedingBackslash
        readLineLoop fuel input2 bufRest2 ex (acc ++ [c]) false false
          (if skipWS then false else aLB) false isCL (decide (c = 92) && !pBS)
      else if isCL ∨ acc = [] then
        -- lines 304-310: discard a comment/blank line, restart
        readLineLoop fuel input2 bufRest2 ex [] false true
          (if skipWS then false else aLB) true false pBS
      else
        match refill2 input2 bufRest2 ex with
        | .inl lr2 => (.line acc, lr2)
        | .inr pr =>
          if pBS then
            -- lines 323-331: continuation: drop the backslash, skip leading
            -- whitespace of the next line, absorb \n after \r
            readLineLoop fuel pr.1 pr.2 ex acc.dropLast (decide (c = 13))
              true true false isCL false
          else
            -- line 333: the logical line is complete
            (.line acc, ⟨pr.1, pr.2, ex⟩)

/-- `lineReader.readLine` (lines 224-339): after exhaustion every call
yields `io.EOF` (lines 225-227); otherwise run the loop with an empty line
buffer and the initial flag values (lines 228-236), giving it enough fuel
to reach the `return` it would reach in the source. -/
def readLine (lr : LR) : ReadResult × LR :=
  if lr.exhausted then (.eof, lr)
  else readLineLoop (lrMeasure lr + 1) lr.input lr.bufRest lr.exhausted []
    false true false true false false

/-- A first-site refill that ends the call with a line comes from the
`io.EOF` branch: source and slice are empty, the reader ends exhausted,
and the line is the accumulated buffer. -/
theorem refill1_done_line (input bufRest : List Nat) (ex : Bool) (acc : List Nat)
    (isCL : Bool) (s : List Nat) (lr2 : LR)
    (h : refill1 input bufRest ex acc isCL = .done (.line s, lr2)) :
    input = [] ∧ bufRest = [] ∧ s = acc ∧ lr2 = ⟨[], [], true⟩ := by
  cases bufRest with
  | cons b rest => simp [refill1] at h
  | nil =>
    cases input with
    | nil =>
      cases isCL with
      | true => simp [refill1] at h
      | false =>
        simp only [refill1, Bool.false_eq_true, if_false, Refill1.done.injEq,
          Prod.mk.injEq, ReadResult.line.injEq] at h
        exact ⟨rfl, rfl, h.1.symm, h.2.symm⟩
    | cons b rest =>
      simp only [refill1] at h
      by_cases hlen : (b :: rest).length < bufCap
      · rw [if_pos hlen] at h
        cases isCL with
        | true => simp at h
        | false => simp at h
      · rw [if_neg hlen] at h
        simp at h

/-- Refilling and reading one byte consumes exactly one unprocessed
byte. -/
theorem refill1_next (input bufRest : List Nat) (ex : Bool) (acc : List Nat)
    (isCL : Bool) (c : Nat) (input2 bufRest2 : List Nat)
    (h : refill1 input bufRest ex acc isCL = .next c input2 bufRest2) :
    input2.length + bufRest2.length + 1 = input.length + bufRest.length := by
  cases bufRest with
  | cons b rest =>
    simp only [refill1, Refill1.next.injEq] at h
    obtain ⟨-, h2, h3⟩ := h
    subst h2
    subst h3
    simp [Nat.add_comm, Nat.add_assoc]
  | nil =>
    cases input with
    | nil => simp [refill1] at h
    | cons b rest =>
      simp only [refill1] at h
      by_cases hlen : (b :: rest).length < bufCap
      · rw [if_pos hlen] at h
        cases isCL with
        | true => simp at h
        | false =>
          simp only [Bool.false_eq_true, if_false, Refill1.next.injEq] at h
          obtain ⟨-, h2, h3⟩ := h
          subst h2
          subst h3
          simp
      · rw [if_neg hlen] at h
        simp only [Refill1.next.injEq] at h
        obtain ⟨-, h2, h3⟩ := h
        subst h2
        subst h3
        simp only [List.length_drop, List.length_take, List.length_cons,
          List.length_nil]
        have hge : bufCap ≤ rest.length + 1 := by
          have := Nat.le_of_not_lt hlen
          simpa using this
        simp only [bufCap] at hge
        simp only [bufCap]
        omega

/-- A second-site refill that ends the call marks the reader exhausted and
does not increase the unprocessed-byte count. -/
theorem refill2_inl (input bufRest : List Nat) (ex : Bool) (lr2 : LR)
    (h : refill2 input bufRest ex = .inl lr2) :
    lr2.exhausted = true ∧ lrMeasure lr2 ≤ input.length + bufRest.length := by
  cases bufRest with
  | cons b rest => simp [refill2] at h
  | nil =>
    cases input with
    | nil =>
      simp only [refill2, Sum.inl.injEq] at h
      subst h
      exact ⟨rfl, by simp [lrMeasure]⟩
    | cons b rest =>
      simp only [refill2] at h
      by_cases hlen : (b :: rest).length < bufCap
      · rw [if_pos hlen] at h
        simp only [Sum.inl.injEq] at h
        subst h
        exact ⟨rfl, by simp [lrMeasure]⟩
      · rw [if_neg hlen] at h
        simp at h

/-- A second-site refill that continues preserves the unprocessed-byte
count. -/
theorem refill2_inr (input bufRest : List Nat) (ex : Bool)
    (input3 bufRest3 : List Nat)
    (h : refill2 input bufRest ex = .inr (input3, bufRest3)) :
    input3.length + bufRest3.length = input.length + bufRest.length := by
  cases bufRest with
  | cons b rest =>
    simp only [refill2, Sum.inr.injEq, Prod.mk.injEq] at h
    obtain ⟨h1, h2⟩ := h
    subst h1
    subst h2
    rfl
  | nil =>
    cases input with
    | nil => simp [refill2] at h
    | cons b rest =>
      simp only [refill2] at h
      by_cases hlen : (b :: rest).length < bufCap
      · rw [if_pos hlen] at h
        simp at h
      · rw [if_neg hlen] at h
        simp only [Sum.inr.injEq, Prod.mk.injEq] at h
        obtain ⟨h1, h2⟩ := h
        subst h1
        subst h2
        simp only [List.length_drop, List.length_take, List.length_cons,
          List.length_nil]
        have hge : bufCap ≤ rest.length + 1 := by
          have := Nat.le_of_not_lt hlen
          simpa using this
        simp only [bufCap] at hge
        simp only [bufCap]
        omega

/-- Termination measure for the loops of `Load`: unprocessed bytes,
plus one while the reader can still run. -/
def lrM2 (lr : LR) : Nat := 2 * lrMeasure lr + (if lr.exhausted then 0 else 1)

/-- Every run of the read loop on a non-exhausted reader that produces a
logical line strictly decreases `lrM2`: it either consumes at least one
byte or flips `exhausted`. -/
theorem readLineLoop_m2 (fuel : Nat) : ∀ (input bufRest acc : List Nat)
    (skipLF skipWS aLB isNL isCL pBS : Bool) (s : List Nat) (lr9 : LR),
    input.length + bufRest.length < fuel →
    readLineLoop fuel input bufRest false acc skipLF skipWS aLB isNL isCL pBS =
      (.line s, lr9) →
    lrM2 lr9 < 2 * (input.length + bufRest.length) + 1 := by
  induction fuel with
  | zero =>
    intro input bufRest acc skipLF skipWS aLB isNL isCL pBS s lr9 hn
    exact absurd hn (Nat.not_lt_zero _)
  | succ n ih =>
    intro input bufRest acc skipLF skipWS aLB isNL isCL pBS s lr9 hn h
    simp only [readLineLoop] at h
    split at h
    case _ r heq =>
      rw [h] at heq
      obtain ⟨q1, q2, q3, q4⟩ := refill1_done_line _ _ _ _ _ _ _ heq
      subst q4
      simp [lrM2, lrMeasure]
    case _ c input2 bufRest2 heq =>
      have hm := refill1_next _ _ _ _ _ _ _ _ heq
      have hkey : ∀ (acc2 : List Nat) (f1 f2 f3 f4 f5 f6 : Bool),
          readLineLoop n input2 bufRest2 false acc2 f1 f2 f3 f4 f5 f6 =
            (.line s, lr9) →
          lrM2 lr9 < 2 * (input.length + bufRest.length) + 1 := by
        intro acc2 f1 f2 f3 f4 f5 f6 hr
        have := ih input2 bufRest2 acc2 f1 f2 f3 f4 f5 f6 s lr9 (by omega) hr
        omega
      split at h
      · exact hkey _ _ _ _ _ _ _ h
      split at h
      · exact hkey _ _ _ _ _ _ _ h
      split at h
      · exact hkey _ _ _ _ _ _ _ h
      split at h
      · exact hkey _ _ _ _ _ _ _ h
      split at h
      · exact hkey _ _ _ _ _ _ _ h
      split at h
      · exact hkey _ _ _ _ _ _ _ h
      split at h
      case _ lr2 heq2 =>
        obtain ⟨w1, w2⟩ := refill2_inl _ _ _ _ heq2
        simp only [Prod.mk.injEq, ReadResult.line.injEq] at h
        obtain ⟨-, h9⟩ := h
        subst h9
        simp only [lrM2, w1, if_true]
        omega
      case _ pr heq2 =>
        have w3 := refill2_inr input2 bufRest2 false pr.1 pr.2 heq2
        split at h
        · have := ih pr.1 pr.2 _ _ _ _ _ _ _ s lr9 (by omega) h
          omega
        · simp only [Prod.mk.injEq, ReadResult.line.injEq] at h
          obtain ⟨-, h9⟩ := h
          subst h9
          simp only [lrM2, lrMeasure]
          simp only [Bool.false_eq_true, if_false]
          omega

/-- The loop's result does not depend on the fuel, as long as the fuel
exceeds the number of unprocessed bytes. -/
theorem readLineLoop_congr (fuel1 : Nat) : ∀ (fuel2 : Nat)
    (input bufRest : List Nat) (ex : Bool) (acc : List Nat)
    (skipLF skipWS aLB isNL isCL pBS : Bool),
    input.length + bufRest.length < fuel1 →
    input.length + bufRest.length < fuel2 →
    readLineLoop fuel1 input bufRest ex acc skipLF skipWS aLB isNL isCL pBS =
      readLineLoop fuel2 input bufRest ex acc skipLF skipWS aLB isNL isCL pBS := by
  induction fuel1 with
  | zero =>
    intro fuel2 input bufRest ex acc skipLF skipWS aLB isNL isCL pBS h1
    exact absurd h1 (Nat.not_lt_zero _)
  | succ n ih =>
    intro fuel2 input bufRest ex acc skipLF skipWS aLB isNL isCL pBS h1 h2
    cases fuel2 with
    | zero => exact absurd h2 (Nat.not_lt_zero _)
    | succ m =>
      simp only [readLineLoop]
      cases hr : refill1 input bufRest ex acc isCL with
      | done r => rfl
      | next c input2 bufRest2 =>
        dsimp only
        have hm := refill1_next _ _ _ _ _ _ _ _ hr
        split
        · exact ih m input2 bufRest2 ex acc _ _ _ _ _ _ (by omega) (by omega)
        split
        · exact ih m input2 bufRest2 ex acc _ _ _ _ _ _ (by omega) (by omega)
        split
        · exact ih m input2 bufRest2 ex acc _ _ _ _ _ _ (by omega) (by omega)
        split
        · exact ih m input2 bufRest2 ex _ _ _ _ _ _ _ (by omega) (by omega)
        split
        · exact ih m input2 bufRest2 ex _ _ _ _ _ _ _ (by omega) (by omega)
        split
        · exact ih m input2 bufRest2 ex _ _ _ _ _ _ _ (by omega) (by omega)
        cases hr2 : refill2 input2 bufRest2 ex with
        | inl lr2 => rfl
        | inr pr =>
          dsimp only
          have w3 := refill2_inr input2 bufRest2 ex pr.1 pr.2 hr2
          split
          · exact ih m pr.1 pr.2 ex _ _ _ _ _ _ _ (by omega) (by omega)
          · rfl

/-- A `readLine` call that produces a logical line strictly decreases
`lrM2`. -/
theorem readLine_m2 (lr : LR) (s : List Nat) (lr9 : LR)
    (h : readLine lr = (.line s, lr9)) : lrM2 lr9 < lrM2 lr := by
  unfold readLine at h
  by_cases hex : lr.exhausted = true
  · rw [if_pos hex] at h
    exact absurd h (by simp)
  · rw [if_neg hex] at h
    have hex2 : lr.exhausted = false := Bool.not_eq_true _ |>.mp hex
    rw [hex2] at h
    have hlt := readLineLoop_m2 (lrMeasure lr + 1) lr.input lr.bufRest []
      false true false true false false s lr9 (by simp [lrMeasure]) h
    have : lrM2 lr = 2 * (lr.input.length + lr.bufRest.length) + 1 := by
      simp [lrM2, lrMeasure, hex2]
    omega

/-- The loop of `Load` (lines 73-128).  A pure byte-list source produces no
read error other than end-of-input, so the `e != nil` arm (lines 78-80)
cannot fire; `io.EOF` ends the loop, and a decode failure is returned at
once as `(nil, err)` (modelled by `.errored` / `.panicked`, which carry no
mapping).  `lrM2` strictly decreases at every produced line
(`readLine_m2`), so the fuel `Load` passes outlasts the loop; lemmas only
ever assume `lrM2 lr < fuel`. -/
def loadLoop : Nat → LR → PropMap → GoResult PropMap
  | 0, _, props => .ok props
  | fuel + 1, lr, props =>
    match readLine lr with
    | (.eof, _) => .ok props
    | (.line s, lr2) =>
      match processLine props s with
      | .ok props2 => loadLoop fuel lr2 props2
      | .errored => .errored
      | .panicked => .panicked

/-- `Load` (lines 69-130): drive a fresh `lineReader` over the source and
accumulate decoded pairs into the mapping. -/
def Load (input : List Nat) : GoResult PropMap :=
  loadLoop (lrM2 (initLR input) + 1) (initLR input) []

/-- The sequence of logical lines a reader produces (the successive
`readLine` results of `Load`'s loop, ignoring decoding), with the same
fuel convention as `loadLoop`. -/
def linesLoop : Nat → LR → List (List Nat)
  | 0, _ => []
  | fuel + 1, lr =>
    match readLine lr with
    | (.eof, _) => []
    | (.line s, lr2) => s :: linesLoop fuel lr2

/-- The logical lines of a byte sequence. -/
def linesOf (input : List Nat) : List (List Nat) :=
  linesLoop (lrM2 (initLR input) + 1) (initLR input)

/-- The outcome class of `processLine` is the line's `lineStatus`,
independent of the accumulated mapping. -/
theorem processLine_lineStatus (props : PropMap) (s : List Nat) :
    (lineStatus s = .errored → processLine props s = .errored) ∧
    (lineStatus s = .panicked → processLine props s = .panicked) ∧
    (lineStatus s = .ok () → ∃ p2, processLine props s = .ok p2) := by
  simp only [processLine, lineStatus]
  cases hk : decodeString (s.take (scanKey s 0 false).1) with
  | panicked => simp
  | errored => simp
  | ok key =>
    cases hv : decodeString (s.drop (scanValueStart
        (s.drop (scanKey s 0 false).2.1) (scanKey s 0 false).2.1
        (scanKey s 0 false).2.2)) with
    | panicked => simp
    | errored => simp
    | ok value => simp

/-- If the `i`-th logical line is the first whose decoding fails with the
malformed-escape error, the load loop returns exactly that error (and no
mapping). -/
theorem loadLoop_errored (fuel : Nat) : ∀ (lr : LR) (props : PropMap) (i : Nat),
    i < (linesLoop fuel lr).length →
    lineStatus ((linesLoop fuel lr).getD i []) = .errored →
    (∀ j, j < i → lineStatus ((linesLoop fuel lr).getD j []) = .ok ()) →
    loadLoop fuel lr props = .errored := by
  induction fuel with
  | zero =>
    intro lr props i hi he hj
    simp [linesLoop] at hi
  | succ n ih =>
    intro lr props i hi he hj
    simp only [linesLoop] at hi he hj
    simp only [loadLoop]
    cases hr : readLine lr with
    | mk res lr2 =>
      rw [hr] at hi he hj
      cases res with
      | eof => exact absurd hi (by simp)
      | line s =>
        dsimp only at hi he hj ⊢
        simp only [List.length_cons] at hi
        cases i with
        | zero =>
          simp only [List.getD_cons_zero] at he
          rw [(processLine_lineStatus props s).1 he]
        | succ i2 =>
          have h0 : lineStatus s = .ok () := by
            have := hj 0 (Nat.succ_pos _)
            simpa using this
          obtain ⟨p2, hp2⟩ := (processLine_lineStatus props s).2.2 h0
          rw [hp2]
          refine ih lr2 p2 i2 (by omega) ?_ ?_
          · simpa using he
          · intro j hji
            have := hj (j + 1) (by omega)
            simpa using this

/-- C4: `Load` is atomic on failure.  For every input whose logical lines
decode cleanly up to an `i`-th line on which `decodeString` returns the
malformed-escape error (for its key or its value), `Load` returns that
error and no mapping — the accumulated partial mapping is discarded
(`.errored` models Go's `return nil, err`), never returned.  (For a pure
byte-list source `readLine` itself can only signal end-of-input, so the
decode errors are the only error paths; a decode panic likewise aborts
without returning a mapping, but is not an error return.) -/
theorem c4_load_atomic_on_error (input : List Nat) (i : Nat)
    (hi : i < (linesOf input).length)
    (he : lineStatus ((linesOf input).getD i []) = .errored)
    (hfirst : ∀ j, j < i → lineStatus ((linesOf input).getD j []) = .ok ()) :
    Load input = .errored :=
  loadLoop_errored _ _ _ i hi he hfirst

/-- Witness for C4 at the concrete input `a=1`, `bad=\uZZZZ`, `c=2`
(the spec's scenario): the second line's value has a malformed escape, so
`Load` returns the error and no mapping, although a prior pair had been
accumulated. -/
theorem c4_witness :
    Load ([97, 61, 49, 10] ++ [98, 97, 100, 61, 92, 117, 90, 90, 90, 90, 10] ++
      [99, 61, 50, 10]) = .errored :=
  c4_load_atomic_on_error _ 1 (by decide) (by decide) (by decide)

/-- C9: `Load` is deterministic in the input's byte content.  A source is
modelled by the byte sequence it delivers, so two `Load` calls over
sources delivering the same bytes are the same application: they return
the same outcome, and on success mappings with the same entries and the
same value for every key.  (Go's map iteration-order randomness does not
touch the key/value contents compared here.) -/
theorem c9_load_deterministic (b1 b2 : List Nat) (h : b1 = b2) :
    Load b1 = Load b2 ∧
      ∀ m1 m2, Load b1 = .ok m1 → Load b2 = .ok m2 →
        m1 = m2 ∧ ∀ k, lookupProp m1 k = lookupProp m2 k := by
  subst h
  refine ⟨rfl, ?_⟩
  intro m1 m2 h1 h2
  rw [h1] at h2
  injection h2 with h3
  subst h3
  exact ⟨rfl, fun k => rfl⟩

/-- Witness for C9 at the concrete content `a=b\n`. -/
theorem c9_witness :
    Load [97, 61, 98, 10] = Load [97, 61, 98, 10] ∧
      ∀ m1 m2, Load [97, 61, 98, 10] = .ok m1 → Load [97, 61, 98, 10] = .ok m2 →
        m1 = m2 ∧ ∀ k, lookupProp m1 k = lookupProp m2 k :=
  c9_load_deterministic [97, 61, 98, 10] [97, 61, 98, 10] rfl

/-- Bytes reach the line buffer only through the append branch, which is
guarded by `char != '\n' && char != '\r'`; discarding (comment/blank
reset) and `dropLast` (continuation) cannot introduce bytes.  So if the
accumulated buffer holds no terminator bytes, neither does any line the
loop returns. -/
theorem readLineLoop_no_eol (fuel : Nat) : ∀ (input bufRest : List Nat) (ex : Bool)
    (acc : List Nat) (f1 f2 f3 f4 f5 f6 : Bool) (s : List Nat) (lr9 : LR),
    (∀ b, b ∈ acc → b ≠ 10 ∧ b ≠ 13) →
    readLineLoop fuel input bufRest ex acc f1 f2 f3 f4 f5 f6 = (.line s, lr9) →
    ∀ b, b ∈ s → b ≠ 10 ∧ b ≠ 13 := by
  induction fuel with
  | zero =>
    intro input bufRest ex acc f1 f2 f3 f4 f5 f6 s lr9 hacc h
    simp [readLineLoop] at h
  | succ n ih =>
    intro input bufRest ex acc f1 f2 f3 f4 f5 f6 s lr9 hacc h
    simp only [readLineLoop] at h
    split at h
    case _ r heq =>
      rw [h] at heq
      obtain ⟨-, -, q3, -⟩ := refill1_done_line _ _ _ _ _ _ _ heq
      subst q3
      exact hacc
    case _ c input2 bufRest2 heq =>
      split at h
      · exact ih _ _ _ _ _ _ _ _ _ _ s lr9 hacc h
      split at h
      · exact ih _ _ _ _ _ _ _ _ _ _ s lr9 hacc h
      split at h
      · exact ih _ _ _ _ _ _ _ _ _ _ s lr9 hacc h
      split at h
      · exact ih _ _ _ _ _ _ _ _ _ _ s lr9 hacc h
      split at h
      · rename_i hc
        refine ih _ _ _ _ _ _ _ _ _ _ s lr9 ?_ h
        intro b hb
        rcases List.mem_append.mp hb with hb1 | hb2
        · exact hacc b hb1
        · rw [List.mem_singleton.mp hb2]
          exact hc
      split at h
      · refine ih _ _ _ _ _ _ _ _ _ _ s lr9 ?_ h
        intro b hb
        simp at hb
      split at h
      case _ lr2 heq2 =>
        simp only [Prod.mk.injEq, ReadResult.line.injEq] at h
        obtain ⟨h1, -⟩ := h
        subst h1
        exact hacc
      case _ pr heq2 =>
        split at h
        · refine ih _ _ _ _ _ _ _ _ _ _ s lr9 ?_ h
          intro b hb
          exact hacc b (List.dropLast_subset _ hb)
        · simp only [Prod.mk.injEq, ReadResult.line.injEq] at h
          obtain ⟨h1, -⟩ := h
          subst h1
          exact hacc

/-- C10: every logical line string returned by `readLine` contains no
newline and no carriage-return byte: only non-terminator bytes are ever
appended to the line buffer, and every returned line is a prefix of that
buffer. -/
theorem c10_lines_have_no_terminators (lr : LR) (s : List Nat) (lr9 : LR)
    (h : readLine lr = (.line s, lr9)) : (10 : Nat) ∉ s ∧ (13 : Nat) ∉ s := by
  unfold readLine at h
  split at h
  · exact absurd h (by simp)
  · have hinv := readLineLoop_no_eol _ _ _ _ _ _ _ _ _ _ _ s lr9
      (by intro b hb; simp at hb) h
    exact ⟨fun hmem => (hinv 10 hmem).1 rfl, fun hmem => (hinv 13 hmem).2 rfl⟩

/-- Witness for C10 at the line `a=b` read from `a=b\n`. -/
theorem c10_witness : (10 : Nat) ∉ [97, 61, 98] ∧ (13 : Nat) ∉ [97, 61, 98] :=
  c10_lines_have_no_terminators (initLR [97, 61, 98, 10]) [97, 61, 98]
    ⟨[], [], true⟩ (by decide)

/-! ## Specification-side notions for the escape decoder -/

/-- Claim-side: the numeric value of a hexadecimal digit byte (decimal
digits, lower-case `a`-`f`, upper-case `A`-`F`). -/
def hexDigitValue (c : Nat) : Option Nat :=
  if 48 ≤ c ∧ c ≤ 57 then some (c - 48)
  else if 97 ≤ c ∧ c ≤ 102 then some (c - 97 + 10)
  else if 65 ≤ c ∧ c ≤ 70 then some (c - 65 + 10)
  else none

/-- The decoder's hex-digit step accepts exactly the valid hex digits and
accumulates their value. -/
theorem hexStep_value (r c v : Nat) (h : hexDigitValue c = some v) :
    v < 16 ∧ hexStep r c = .ok (r * 16 + v) := by
  unfold hexDigitValue at h
  unfold hexStep
  by_cases h1 : 48 ≤ c ∧ c ≤ 57
  · rw [if_pos h1] at h
    injection h with hv
    subst hv
    rw [if_pos h1]
    exact ⟨by omega, rfl⟩
  · rw [if_neg h1] at h
    rw [if_neg h1]
    by_cases h2 : 97 ≤ c ∧ c ≤ 102
    · rw [if_pos h2] at h
      injection h with hv
      subst hv
      rw [if_pos h2]
      refine ⟨by omega, ?_⟩
      have he : r * 16 + 10 + (c - 97) = r * 16 + (c - 97 + 10) := by omega
      rw [he]
    · rw [if_neg h2] at h
      rw [if_neg h2]
      by_cases h3 : 65 ≤ c ∧ c ≤ 70
      · rw [if_pos h3] at h
        injection h with hv
        subst hv
        rw [if_pos h3]
        refine ⟨by omega, ?_⟩
        have he : r * 16 + 10 + (c - 65) = r * 16 + (c - 65 + 10) := by omega
        rw [he]
      · rw [if_neg h3] at h
        simp at h

/-- Four valid hex digits make the `for j` loop of `decodeString` return
their base-16 value. -/
theorem readHex_four (d1 d2 d3 d4 v1 v2 v3 v4 : Nat)
    (h1 : hexDigitValue d1 = some v1) (h2 : hexDigitValue d2 = some v2)
    (h3 : hexDigitValue d3 = some v3) (h4 : hexDigitValue d4 = some v4) :
    readHex 0 4 [d1, d2, d3, d4] = .ok (((v1 * 16 + v2) * 16 + v3) * 16 + v4) := by
  have e1 := (hexStep_value 0 d1 v1 h1).2
  have e2 := (hexStep_value (0 * 16 + v1) d2 v2 h2).2
  have e3 := (hexStep_value ((0 * 16 + v1) * 16 + v2) d3 v3 h3).2
  have e4 := (hexStep_value (((0 * 16 + v1) * 16 + v2) * 16 + v3) d4 v4 h4).2
  have hv : (((0 * 16 + v1) * 16 + v2) * 16 + v3) * 16 + v4 =
      ((v1 * 16 + v2) * 16 + v3) * 16 + v4 := by omega
  simp only [readHex, e1, e2, e3, e4, hv]

/-- Claim-side UTF-8 decoding of one encoded code point below `0x10000`
(the generalized three-byte pattern also maps surrogate encodings back to
their code points), used to state the `\uXXXX` round trip. -/
def utf8Decode1 (l : List Nat) : Option Nat :=
  match l with
  | [b1] => if b1 < 128 then some b1 else none
  | [b1, b2] =>
    if 192 ≤ b1 ∧ b1 < 224 ∧ 128 ≤ b2 ∧ b2 < 192 then
      some ((b1 - 192) * 64 + (b2 - 128))
    else none
  | [b1, b2, b3] =>
    if 224 ≤ b1 ∧ b1 < 240 ∧ 128 ≤ b2 ∧ b2 < 192 ∧ 128 ≤ b3 ∧ b3 < 192 then
      some ((b1 - 224) * 4096 + (b2 - 128) * 64 + (b3 - 128))
    else none
  | _ => none

set_option maxRecDepth 4096 in
/-- The encoding emitted for any code point below `0x10000` decodes back
to that code point. -/
theorem utf8_roundtrip (n : Nat) (hn : n < 65536) :
    utf8Decode1 (utf8EncodeRune n) = some n := by
  unfold utf8EncodeRune
  by_cases hc1 : n < 128
  · rw [if_pos hc1]
    simp [utf8Decode1, hc1]
  · rw [if_neg hc1]
    by_cases hc2 : n < 2048
    · rw [if_pos hc2]
      simp only [utf8Decode1]
      rw [if_pos (by omega)]
      congr 1
      omega
    · rw [if_neg hc2]
      simp only [utf8Decode1]
      rw [if_pos (by omega)]
      congr 1
      omega

/-- C6: Unicode escape round-trip.  Decoding `\u` followed by any four
hexadecimal digits (upper- or lower-case) yields exactly the code point
they denote, re-encoded in the mapping's character encoding: the decoder
returns the one-rune byte sequence `utf8EncodeRune n`, and decoding that
byte sequence as UTF-8 (`utf8Decode1`, the claim-side decoder) recovers
`n`.  Holds for every `n` expressible in four hex digits, surrogate
halves included (see `utf8EncodeRune` on the contemporaneous
`unicode/utf8`). -/
theorem c6_unicode_escape_roundtrip (d1 d2 d3 d4 v1 v2 v3 v4 : Nat)
    (h1 : hexDigitValue d1 = some v1) (h2 : hexDigitValue d2 = some v2)
    (h3 : hexDigitValue d3 = some v3) (h4 : hexDigitValue d4 = some v4) :
    decodeString [92, 117, d1, d2, d3, d4] =
      .ok (utf8EncodeRune (((v1 * 16 + v2) * 16 + v3) * 16 + v4)) ∧
    utf8Decode1 (utf8EncodeRune (((v1 * 16 + v2) * 16 + v3) * 16 + v4)) =
      some (((v1 * 16 + v2) * 16 + v3) * 16 + v4) := by
  have b1 := (hexStep_value 0 d1 v1 h1).1
  have b2 := (hexStep_value 0 d2 v2 h2).1
  have b3 := (hexStep_value 0 d3 v3 h3).1
  have b4 := (hexStep_value 0 d4 v4 h4).1
  constructor
  · have hr := readHex_four d1 d2 d3 d4 v1 v2 v3 v4 h1 h2 h3 h4
    show decodeUStep (readHex 0 4 [d1, d2, d3, d4]) (decodeLoop []) = _
    rw [hr]
    simp [decodeUStep, decodeLoop]
  · exact utf8_roundtrip _ (by omega)

/-- Witness for C6 at `П` (code point 1055, `П`): the decoder emits
its UTF-8 bytes and they decode back to 1055. -/
theorem c6_witness :
    decodeString [92, 117, 48, 52, 49, 102] = .ok (utf8EncodeRune 1055) ∧
    utf8Decode1 (utf8EncodeRune 1055) = some 1055 :=
  c6_unicode_escape_roundtrip 48 52 49 102 0 4 1 15
    (by decide) (by decide) (by decide) (by decide)

/-- C3 is refuted by the code: `decodeString` indexes `in[i]` right after
`i++` with no bounds check, so a string ending in a bare backslash, or in
`\u` with fewer than four bytes left, reads past the end of the string —
an index-out-of-range panic in Go — instead of returning the
malformed-escape error the claim (and the spec) require; the error is
returned only when an in-range byte fails the hex-digit test.  The three
conjuncts evaluate the decoder at a lone backslash, at `bad\u12`
(truncated at end of string), and at `\uZZZZ` (invalid digit in range). -/
theorem c3_truncated_escape_reads_out_of_bounds :
    decodeString [92] = .panicked ∧
    decodeString [98, 97, 100, 92, 117, 49, 50] = .panicked ∧
    decodeString [92, 117, 90, 90, 90, 90] = .errored := by decide

/-- C2 is refuted by the code: at true end of input with nothing
accumulated, `readLine` returns `("", nil)` instead of `io.EOF` (line 247
lacks old Java's `len == 0` guard), so `Load` inserts the pair
`"" -> ""`: the empty input and a whitespace-only input (space, tab,
form feed, newline) both yield a one-entry mapping with the empty key,
not an empty mapping. -/
theorem c2_blank_input_inserts_empty_key :
    Load [] = .ok [([], [])] ∧ Load [32, 9, 12, 10] = .ok [([], [])] := by decide

set_option maxRecDepth 131072 in
set_option maxHeartbeats 4000000 in
/-- C1 is refuted by the code: a partial refill (`io.ErrUnexpectedEOF`,
fewer than 1024 bytes remaining) is treated as end of input even though
the just-read bytes are still unprocessed.  First conjunct: a comment
line spanning the 1024-byte refill boundary makes `readLine` signal
`io.EOF` (line 251), so the declaration `a=b` after the boundary is lost
and `Load` returns the empty mapping.  Second conjunct: the same content
with the comment not crossing a boundary keeps `a=b`.  Third conjunct: a
physical-line terminator falling exactly at the boundary makes the second
refill site mark the reader exhausted (lines 314-317), losing the `c=d`
declaration that follows (the `k=aa` line is pushed to the boundary by
skipped blank lines).  So the produced lines do depend on how the input
falls across refills. -/
theorem c1_refill_boundary_loses_declarations :
    Load (List.replicate 1024 35 ++ [10, 97, 61, 98, 10]) = .ok [] ∧
    Load (List.replicate 8 35 ++ [10, 97, 61, 98, 10]) = .ok [([97], [98])] ∧
    Load (List.replicate 1019 10 ++ [107, 61, 97, 97, 10] ++ [99, 61, 100, 10]) =
      .ok [([107], [97, 97])] :=
  ⟨by decide, by decide, by decide⟩

/-! ## Specification-side notions for the key scan -/

/-- Claim-side: a byte that can terminate the key (separator or
whitespace). -/
def isSepOrWs (c : Nat) : Bool :=
  c == 61 || c == 58 || c == 32 || c == 9 || c == 12

/-- Claim-side: the length of the run of backslashes at the end of a
byte string. -/
def trailingBackslashes (l : List Nat) : Nat :=
  ((l.reverse).takeWhile (fun b => b == 92)).length

/-- Claim-side: the index of the first `=`, `:`, space, tab or form feed
that is not preceded by an odd run of backslashes (the string's length
when there is none). -/
def firstUnescapedSep (s : List Nat) : Nat :=
  ((List.range s.length).find? (fun j => isSepOrWs (s.getD j 0) &&
    trailingBackslashes (s.take j) % 2 == 0)).getD s.length

/-- Appending a non-backslash byte clears the trailing run. -/
theorem trailingBackslashes_append_other (l : List Nat) (c : Nat) (hc : c ≠ 92) :
    trailingBackslashes (l ++ [c]) = 0 := by
  simp [trailingBackslashes, List.takeWhile_cons, hc]

/-- Appending a backslash extends the trailing run. -/
theorem trailingBackslashes_append_bs (l : List Nat) :
    trailingBackslashes (l ++ [92]) = trailingBackslashes l + 1 := by
  simp [trailingBackslashes, List.takeWhile_cons]

/-- The key scan's result index is shifted with its starting index. -/
theorem scanKey_shift (t : List Nat) : ∀ (i : Nat) (p : Bool),
    (scanKey t i p).1 = i + (scanKey t 0 p).1 := by
  induction t with
  | nil =>
    intro i p
    simp [scanKey]
  | cons c rest ih =>
    intro i p
    simp only [scanKey]
    split
    · simp
    · split
      · simp
      · rw [ih (i + 1), ih 1]
        omega

/-- Extracting the first element of a shifted search over `range`. -/
theorem find_range_shift (n : Nat) (P : Nat → Bool) :
    ((List.range (n + 1)).find? P).getD (n + 1) =
      if P 0 then 0
      else ((List.range n).find? (fun j => P (j + 1))).getD n + 1 := by
  rw [List.range_succ_eq_map]
  by_cases h0 : P 0 = true
  · rw [List.find?_cons_of_pos _ h0, if_pos h0]
    simp
  · rw [List.find?_cons_of_neg _ h0, if_neg h0]
    rw [List.find?_map]
    have hP : (P ∘ Nat.succ) = fun j => P (j + 1) := by
      funext j
      simp [Nat.succ_eq_add_one]
    rw [hP]
    cases hfind : (List.range n).find? (fun j => P (j + 1)) with
    | none => simp
    | some a => simp


/-- Incrementing a number flips the parity test. -/
theorem parity_flip (a : Nat) : ((a + 1) % 2 == 1) = !(a % 2 == 1) := by
  rcases Nat.mod_two_eq_zero_or_one a with h | h <;> simp [Nat.add_mod, h]

/-- The key scan with the toggle seeded by the trailing-backslash parity
of an already-processed prefix stops exactly at the first separator or
whitespace byte not preceded (relative to that prefix) by an odd
backslash run. -/
theorem scanKey_first (t : List Nat) : ∀ (pre : List Nat),
    (scanKey t 0 (trailingBackslashes pre % 2 == 1)).1 =
      ((List.range t.length).find? (fun j => isSepOrWs (t.getD j 0) &&
        trailingBackslashes (pre ++ t.take j) % 2 == 0)).getD t.length := by
  induction t with
  | nil =>
    intro pre
    simp [scanKey]
  | cons c rest ih =>
    intro pre
    rw [List.length_cons, find_range_shift]
    have hP0 : (isSepOrWs ((c :: rest).getD 0 0) &&
        trailingBackslashes (pre ++ List.take 0 (c :: rest)) % 2 == 0) =
        (isSepOrWs c && trailingBackslashes pre % 2 == 0) := by
      simp
    rw [hP0]
    by_cases hstop : isSepOrWs c = true ∧ (trailingBackslashes pre % 2 == 1) = false
    · -- unescaped separator or whitespace: the key ends at index 0
      obtain ⟨hsep, hpar⟩ := hstop
      have hyes : (isSepOrWs c && trailingBackslashes pre % 2 == 0) = true := by
        simp only [hsep, Bool.true_and]
        simp only [beq_eq_false_iff_ne] at hpar
        simp only [beq_iff_eq]
        omega
      rw [hyes, if_pos rfl, hpar]
      have hsep2 : c = 61 ∨ c = 58 ∨ c = 32 ∨ c = 9 ∨ c = 12 := by
        simpa [isSepOrWs, or_assoc] using hsep
      rcases hsep2 with rfl | rfl | rfl | rfl | rfl <;> simp [scanKey]
    · -- the scan walks past this byte
      have hno : (isSepOrWs c && trailingBackslashes pre % 2 == 0) = false := by
        rcases hs : isSepOrWs c with _ | _
        · simp
        · simp only [Bool.true_and]
          have hp1 : (trailingBackslashes pre % 2 == 1) = true := by
            rcases hp : (trailingBackslashes pre % 2 == 1) with _ | _
            · exact absurd ⟨hs, hp⟩ hstop
            · rfl
          simp only [beq_iff_eq] at hp1
          simp only [beq_eq_false_iff_ne]
          omega
      rw [hno, if_neg (by simp)]
      have hif1 : ¬((c = 61 ∨ c = 58) ∧
          ¬(trailingBackslashes pre % 2 == 1) = true) := by
        rintro ⟨hor, hnp⟩
        refine hstop ⟨?_, ?_⟩
        · rcases hor with rfl | rfl <;> simp [isSepOrWs]
        · rcases hb : (trailingBackslashes pre % 2 == 1) with _ | _
          · rfl
          · exact absurd hb hnp
      have hif2 : ¬((c = 32 ∨ c = 9 ∨ c = 12) ∧
          ¬(trailingBackslashes pre % 2 == 1) = true) := by
        rintro ⟨hor, hnp⟩
        refine hstop ⟨?_, ?_⟩
        · rcases hor with rfl | rfl | rfl <;> simp [isSepOrWs]
        · rcases hb : (trailingBackslashes pre % 2 == 1) with _ | _
          · rfl
          · exact absurd hb hnp
      have hstep : scanKey (c :: rest) 0 (trailingBackslashes pre % 2 == 1) =
          scanKey rest 1
            (if c = 92 then !(trailingBackslashes pre % 2 == 1) else false) := by
        simp only [scanKey]
        rw [if_neg hif1, if_neg hif2]
      have hpre2 : (if c = 92 then !(trailingBackslashes pre % 2 == 1) else false) =
          (trailingBackslashes (pre ++ [c]) % 2 == 1) := by
        by_cases hc : c = 92
        · subst hc
          rw [if_pos rfl, trailingBackslashes_append_bs, parity_flip]
        · rw [if_neg hc, trailingBackslashes_append_other pre c hc]
          simp
      rw [hstep, hpre2, scanKey_shift, ih (pre ++ [c])]
      have hQ : (fun j => isSepOrWs ((c :: rest).getD (j + 1) 0) &&
          trailingBackslashes (pre ++ List.take (j + 1) (c :: rest)) % 2 == 0) =
          (fun j => isSepOrWs (rest.getD j 0) &&
            trailingBackslashes (pre ++ [c] ++ List.take j rest) % 2 == 0) := by
        funext j
        simp [List.append_assoc]
      rw [hQ]
      omega

/-- C7: in the key scan of a logical line, an escaped separator does not
terminate the key.  First conjunct: the computed key length is exactly
the index of the first `=`, `:`, space, tab or form feed whose preceding
backslash run is even (the string length when there is none), so a
separator preceded by an odd run — `\=`, `\:`, `\ `, escaped tab or form
feed — never ends the key.  Second conjunct: in the decoded key the
escaped separator appears literally, the backslash dropped. -/
theorem c7_key_scan_respects_escapes (s : List Nat) :
    (scanKey s 0 false).1 = firstUnescapedSep s ∧
      (∀ c, c = 61 ∨ c = 58 ∨ c = 32 ∨ c = 9 ∨ c = 12 →
        ∀ v out, decodeString v = .ok out →
          decodeString (92 :: c :: v) = .ok (c :: out)) := by
  constructor
  · have h := scanKey_first s []
    have h0 : (trailingBackslashes [] % 2 == 1) = false := by
      simp [trailingBackslashes]
    rw [h0] at h
    rw [h]
    unfold firstUnescapedSep
    simp only [List.nil_append]
  · intro c hc v out hv
    have hv2 : decodeLoop v = .ok out := hv
    rcases hc with rfl | rfl | rfl | rfl | rfl <;>
      · simp only [decodeString]
        rw [decodeLoop.eq_def]
        dsimp only
        rw [hv2]
        simp [decodeEmit]

/-- Witness for C7 at the line `a\=b=c`: the key ends at the second `=`
(index 4), not at the escaped one, and `\=` decodes to a literal `=`. -/
theorem c7_witness :
    (scanKey [97, 92, 61, 98, 61, 99] 0 false).1 =
      firstUnescapedSep [97, 92, 61, 98, 61, 99] ∧
    decodeString [92, 61, 98] = .ok [61, 98] :=
  ⟨(c7_key_scan_respects_escapes [97, 92, 61, 98, 61, 99]).1,
   (c7_key_scan_respects_escapes [97, 92, 61, 98, 61, 99]).2 61 (Or.inl rfl)
     [98] [98] (by decide)⟩

/-! ## Stepping lemmas for the read loop on single-buffer states

For inputs shorter than the raw buffer the whole source is delivered by
one partial refill, so the reader runs on states of the form
`input = []`, `bufRest = rem`; the lemmas below walk such states byte by
byte.  All of them quantify over any sufficient fuel. -/

/-- The `precedingBackslash` toggle after appending a byte sequence
(line 301: set on a backslash that does not follow a backslash, cleared
otherwise). -/
def bsToggle (p : Bool) : List Nat → Bool
  | [] => p
  | c :: rest => bsToggle (decide (c = 92) && !p) rest

/-- The toggle processes an appended sequence left to right. -/
theorem bsToggle_append (a : List Nat) : ∀ (p : Bool) (b : List Nat),
    bsToggle p (a ++ b) = bsToggle (bsToggle p a) b := by
  induction a with
  | nil => intro p b; rfl
  | cons c rest ih =>
    intro p b
    simp only [List.cons_append, bsToggle]
    exact ih _ b

/-- Starting clear, the toggle is exactly the parity of the trailing
backslash run. -/
theorem bsToggle_false_eq_parity (x : List Nat) :
    bsToggle false x = (trailingBackslashes x % 2 == 1) := by
  induction x using List.reverseRecOn with
  | nil => simp [bsToggle, trailingBackslashes]
  | append_singleton xs c ih =>
    rw [bsToggle_append, ih]
    by_cases hc : c = 92
    · subst hc
      rw [trailingBackslashes_append_bs, parity_flip]
      simp [bsToggle]
    · rw [trailingBackslashes_append_other xs c hc]
      simp [bsToggle, hc]

/-- With a byte available in the buffer slice, the refill step just reads
it. -/
theorem refill1_cons (input : List Nat) (c : Nat) (rest : List Nat) (ex : Bool)
    (acc : List Nat) (isCL : Bool) :
    refill1 input (c :: rest) ex acc isCL = .next c input rest := rfl

/-- Refilling and reading one byte takes exactly the head of the
unprocessed byte sequence (buffer slice first, then source). -/
theorem refill1_next_bytes (input bufRest : List Nat) (ex : Bool) (acc : List Nat)
    (isCL : Bool) (c : Nat) (input2 bufRest2 : List Nat)
    (h : refill1 input bufRest ex acc isCL = .next c input2 bufRest2) :
    bufRest ++ input = c :: (bufRest2 ++ input2) := by
  cases bufRest with
  | cons b rest =>
    simp only [refill1, Refill1.next.injEq] at h
    obtain ⟨h1, h2, h3⟩ := h
    subst h1
    subst h2
    subst h3
    rfl
  | nil =>
    cases input with
    | nil => simp [refill1] at h
    | cons b rest =>
      simp only [refill1] at h
      by_cases hlen : (b :: rest).length < bufCap
      · rw [if_pos hlen] at h
        cases isCL with
        | true => simp at h
        | false =>
          simp only [Bool.false_eq_true, if_false, Refill1.next.injEq] at h
          obtain ⟨h1, h2, h3⟩ := h
          subst h1
          subst h2
          subst h3
          simp
      · rw [if_neg hlen] at h
        simp only [Refill1.next.injEq] at h
        obtain ⟨h1, h2, h3⟩ := h
        subst h1
        subst h2
        subst h3
        simp only [List.nil_append, List.append_nil]
        rw [List.take_append_drop]

/-- In a comment, both end-of-input refill outcomes signal `io.EOF`. -/
theorem refill1_done_comment (input bufRest : List Nat) (ex : Bool)
    (acc : List Nat) (r : ReadResult × LR)
    (h : refill1 input bufRest ex acc true = .done r) : r.1 = .eof := by
  cases bufRest with
  | cons b rest => simp [refill1] at h
  | nil =>
    cases input with
    | nil =>
      simp only [refill1, if_pos] at h
      injection h with h2
      rw [h2.symm]
    | cons b rest =>
      simp only [refill1] at h
      by_cases hlen : (b :: rest).length < bufCap
      · rw [if_pos hlen, if_pos trivial] at h
        injection h with h2
        rw [h2.symm]
      · rw [if_neg hlen] at h
        simp at h

/-- The loop body after a byte `c` has been read (lines 264-335), as a
standalone function: `readLineLoop (fuel+1)` equals `stepAfter fuel` at the
byte delivered by the refill (`readLineLoop_next`). -/
def stepAfter (fuel : Nat) (c : Nat) (input2 bufRest2 : List Nat) (ex : Bool)
    (acc : List Nat) (skipLF skipWS aLB isNL isCL pBS : Bool) : ReadResult × LR :=
  if skipLF ∧ c = 10 then
    readLineLoop fuel input2 bufRest2 ex acc false skipWS aLB isNL isCL pBS
  else if skipWS ∧ (c = 32 ∨ c = 9 ∨ c = 12) then
    readLineLoop fuel input2 bufRest2 ex acc false skipWS aLB isNL isCL pBS
  else if skipWS ∧ aLB = false ∧ (c = 13 ∨ c = 10) then
    readLineLoop fuel input2 bufRest2 ex acc false skipWS aLB isNL isCL pBS
  else if isNL ∧ (c = 35 ∨ c = 33) then
    readLineLoop fuel input2 bufRest2 ex acc false false
      (if skipWS then false else aLB) false true pBS
  else if c ≠ 10 ∧ c ≠ 13 then
    readLineLoop fuel input2 bufRest2 ex (acc ++ [c]) false false
      (if skipWS then false else aLB) false isCL (decide (c = 92) && !pBS)
  else if isCL ∨ acc = [] then
    readLineLoop fuel input2 bufRest2 ex [] false true
      (if skipWS then false else aLB) true false pBS
  else
    match refill2 input2 bufRest2 ex with
    | .inl lr2 => (.line acc, lr2)
    | .inr pr =>
      if pBS then
        readLineLoop fuel pr.1 pr.2 ex acc.dropLast (decide (c = 13))
          true true false isCL false
      else
        (.line acc, ⟨pr.1, pr.2, ex⟩)

/-- One unfolding of the loop through a successful refill. -/
theorem readLineLoop_next (fuel : Nat) (input bufRest : List Nat) (ex : Bool)
    (acc : List Nat) (skipLF skipWS aLB isNL isCL pBS : Bool)
    (c : Nat) (input2 bufRest2 : List Nat)
    (hr : refill1 input bufRest ex acc isCL = .next c input2 bufRest2) :
    readLineLoop (fuel + 1) input bufRest ex acc skipLF skipWS aLB isNL isCL pBS =
      stepAfter fuel c input2 bufRest2 ex acc skipLF skipWS aLB isNL isCL pBS := by
  simp only [readLineLoop]
  rw [hr]
  rfl

/-- The fuel of a step body is irrelevant above the unprocessed-byte
count. -/
theorem stepAfter_congr (fuel1 fuel2 : Nat) (c : Nat) (input2 bufRest2 : List Nat)
    (ex : Bool) (acc : List Nat) (skipLF skipWS aLB isNL isCL pBS : Bool)
    (h1 : input2.length + bufRest2.length < fuel1)
    (h2 : input2.length + bufRest2.length < fuel2) :
    stepAfter fuel1 c input2 bufRest2 ex acc skipLF skipWS aLB isNL isCL pBS =
      stepAfter fuel2 c input2 bufRest2 ex acc skipLF skipWS aLB isNL isCL pBS := by
  unfold stepAfter
  have hcongr : ∀ (i b a : List Nat) (f1 f2 f3 f4 f5 f6 : Bool),
      i.length + b.length = input2.length + bufRest2.length →
      readLineLoop fuel1 i b ex a f1 f2 f3 f4 f5 f6 =
        readLineLoop fuel2 i b ex a f1 f2 f3 f4 f5 f6 := by
    intro i b a f1 f2 f3 f4 f5 f6 hlen
    exact readLineLoop_congr fuel1 fuel2 i b ex a f1 f2 f3 f4 f5 f6
      (by omega) (by omega)
  split_ifs <;> try exact hcongr _ _ _ _ _ _ _ _ _ rfl
  all_goals
    cases hr : refill2 input2 bufRest2 ex with
    | inl lr2 => rfl
    | inr pr =>
      have hm := refill2_inr input2 bufRest2 ex pr.1 pr.2 (by rw [hr])
      first
        | exact hcongr _ _ _ _ _ _ _ _ _ hm
        | rfl

/-- An input shorter than the raw buffer arrives in one partial refill:
the reader behaves as if the whole input were already in the buffer
slice.  (Not true of a comment state, whose partial refill ends the
call, so `isCL` is pinned to `false`.) -/
theorem readLineLoop_entry (fuel1 fuel2 : Nat) (input : List Nat) (ex : Bool)
    (acc : List Nat) (skipLF skipWS aLB isNL pBS : Bool)
    (hcap : input.length < bufCap)
    (h1 : input.length < fuel1) (h2 : input.length < fuel2) :
    readLineLoop fuel1 input [] ex acc skipLF skipWS aLB isNL false pBS =
      readLineLoop fuel2 [] input ex acc skipLF skipWS aLB isNL false pBS := by
  cases fuel1 with
  | zero => omega
  | succ f1 =>
    cases fuel2 with
    | zero => omega
    | succ f2 =>
      cases input with
      | nil => rfl
      | cons b rest =>
        have hA : refill1 (b :: rest) [] ex acc false = .next b [] rest := by
          simp only [refill1]
          rw [if_pos hcap]
          rfl
        have hB : refill1 [] (b :: rest) ex acc false = .next b [] rest := rfl
        rw [readLineLoop_next f1 _ _ _ _ _ _ _ _ _ _ _ _ _ hA,
            readLineLoop_next f2 _ _ _ _ _ _ _ _ _ _ _ _ _ hB]
        exact stepAfter_congr f1 f2 b [] rest ex acc skipLF skipWS aLB isNL false pBS
          (by simp at h1 ⊢; omega) (by simp at h2 ⊢; omega)

/-- Leading whitespace and blank-line terminators are skipped while
`skipWhiteSpace` is set and no continuation is pending (lines 271-277). -/
theorem readLineLoop_skip_blank (w : List Nat) : ∀ (rem : List Nat) (ex : Bool)
    (acc : List Nat) (isNL isCL pBS : Bool) (fuel1 fuel2 : Nat),
    (∀ b ∈ w, b = 32 ∨ b = 9 ∨ b = 12 ∨ b = 13 ∨ b = 10) →
    w.length + rem.length < fuel1 → rem.length < fuel2 →
    readLineLoop fuel1 [] (w ++ rem) ex acc false true false isNL isCL pBS =
      readLineLoop fuel2 [] rem ex acc false true false isNL isCL pBS := by
  induction w with
  | nil =>
    intro rem ex acc isNL isCL pBS fuel1 fuel2 _ h1 h2
    exact readLineLoop_congr fuel1 fuel2 [] rem ex acc false true false isNL isCL pBS
      (by simpa using h1) (by simpa using h2)
  | cons c w2 ih =>
    intro rem ex acc isNL isCL pBS fuel1 fuel2 hw h1 h2
    cases fuel1 with
    | zero => simp at h1
    | succ f1 =>
      rw [List.cons_append,
          readLineLoop_next f1 [] (c :: (w2 ++ rem)) ex acc false true false isNL
            isCL pBS c [] (w2 ++ rem) rfl]
      have hc := hw c (List.mem_cons_self c w2)
      have hstep : stepAfter f1 c [] (w2 ++ rem) ex acc false true false isNL isCL pBS =
          readLineLoop f1 [] (w2 ++ rem) ex acc false true false isNL isCL pBS := by
        rcases hc with rfl | rfl | rfl | rfl | rfl <;> simp [stepAfter]
      rw [hstep]
      exact ih rem ex acc isNL isCL pBS f1 fuel2
        (fun b hb => hw b (List.mem_cons_of_mem c hb))
        (by simp at h1 ⊢; omega) h2

/-- Leading whitespace of a continuation line is skipped as well, with
`appendedLineBegin` set (so terminators are not skipped). -/
theorem readLineLoop_skip_ws (w : List Nat) : ∀ (rem : List Nat) (ex : Bool)
    (acc : List Nat) (aLB isNL isCL pBS : Bool) (fuel1 fuel2 : Nat),
    (∀ b ∈ w, b = 32 ∨ b = 9 ∨ b = 12) →
    w.length + rem.length < fuel1 → rem.length < fuel2 →
    readLineLoop fuel1 [] (w ++ rem) ex acc false true aLB isNL isCL pBS =
      readLineLoop fuel2 [] rem ex acc false true aLB isNL isCL pBS := by
  induction w with
  | nil =>
    intro rem ex acc aLB isNL isCL pBS fuel1 fuel2 _ h1 h2
    exact readLineLoop_congr fuel1 fuel2 [] rem ex acc false true aLB isNL isCL pBS
      (by simpa using h1) (by simpa using h2)
  | cons c w2 ih =>
    intro rem ex acc aLB isNL isCL pBS fuel1 fuel2 hw h1 h2
    cases fuel1 with
    | zero => simp at h1
    | succ f1 =>
      rw [List.cons_append,
          readLineLoop_next f1 [] (c :: (w2 ++ rem)) ex acc false true aLB isNL
            isCL pBS c [] (w2 ++ rem) rfl]
      have hc := hw c (List.mem_cons_self c w2)
      have hstep : stepAfter f1 c [] (w2 ++ rem) ex acc false true aLB isNL isCL pBS =
          readLineLoop f1 [] (w2 ++ rem) ex acc false true aLB isNL isCL pBS := by
        rcases hc with rfl | rfl | rfl <;> simp [stepAfter]
      rw [hstep]
      exact ih rem ex acc aLB isNL isCL pBS f1 fuel2
        (fun b hb => hw b (List.mem_cons_of_mem c hb))
        (by simp at h1 ⊢; omega) h2

/-- A non-whitespace, non-terminator byte that is not a comment marker at
the start of a natural line ends whitespace skipping and is appended to
the line buffer, setting the backslash toggle (lines 278-301). -/
theorem readLineLoop_step_first (f : Nat) (c : Nat) (rem : List Nat) (ex : Bool)
    (acc : List Nat) (aLB isNL isCL pBS : Bool)
    (h32 : c ≠ 32) (h9 : c ≠ 9) (h12 : c ≠ 12) (h10 : c ≠ 10) (h13 : c ≠ 13)
    (hmark : isNL = true → c ≠ 35 ∧ c ≠ 33) :
    readLineLoop (f + 1) [] (c :: rem) ex acc false true aLB isNL isCL pBS =
      readLineLoop f [] rem ex (acc ++ [c]) false false false false isCL
        (decide (c = 92) && !pBS) := by
  rw [readLineLoop_next f [] (c :: rem) ex acc false true aLB isNL isCL pBS
      c [] rem rfl]
  unfold stepAfter
  rw [if_neg (by simp), if_neg (by simp [h32, h9, h12]),
      if_neg (by simp [h13, h10]),
      if_neg (by
        intro hcon
        rcases (hmark hcon.1) with ⟨ha, hb⟩
        rcases hcon.2 with h | h
        · exact ha h
        · exact hb h),
      if_pos ⟨h10, h13⟩]
  rfl

/-- A comment marker at the start of a natural line switches the call
into comment mode (lines 282-287). -/
theorem readLineLoop_step_comment (f : Nat) (m : Nat) (rem : List Nat) (ex : Bool)
    (acc : List Nat) (aLB isCL pBS : Bool) (hm : m = 35 ∨ m = 33) :
    readLineLoop (f + 1) [] (m :: rem) ex acc false true aLB true isCL pBS =
      readLineLoop f [] rem ex acc false false false false true pBS := by
  rw [readLineLoop_next f [] (m :: rem) ex acc false true aLB true isCL pBS
      m [] rem rfl]
  rcases hm with rfl | rfl <;> simp [stepAfter]

/-- With whitespace skipping over, a run of non-terminator bytes is
appended verbatim, threading the backslash toggle through `bsToggle`
(lines 290-301).  Comment content takes the same branch, so this also
walks the body of a comment line. -/
theorem readLineLoop_content (u : List Nat) : ∀ (rem : List Nat) (ex : Bool)
    (acc : List Nat) (isCL pBS : Bool) (fuel1 fuel2 : Nat),
    (∀ b ∈ u, b ≠ 10 ∧ b ≠ 13) →
    u.length + rem.length < fuel1 → rem.length < fuel2 →
    readLineLoop fuel1 [] (u ++ rem) ex acc false false false false isCL pBS =
      readLineLoop fuel2 [] rem ex (acc ++ u) false false false false isCL
        (bsToggle pBS u) := by
  induction u with
  | nil =>
    intro rem ex acc isCL pBS fuel1 fuel2 _ h1 h2
    simpa [bsToggle] using
      readLineLoop_congr fuel1 fuel2 [] rem ex acc false false false false isCL pBS
        (by simpa using h1) (by simpa using h2)
  | cons c u2 ih =>
    intro rem ex acc isCL pBS fuel1 fuel2 hu h1 h2
    cases fuel1 with
    | zero => simp at h1
    | succ f1 =>
      obtain ⟨hc10, hc13⟩ := hu c (List.mem_cons_self c u2)
      rw [List.cons_append,
          readLineLoop_next f1 [] (c :: (u2 ++ rem)) ex acc false false false false
            isCL pBS c [] (u2 ++ rem) rfl]
      have hstep : stepAfter f1 c [] (u2 ++ rem) ex acc false false false false isCL pBS =
          readLineLoop f1 [] (u2 ++ rem) ex (acc ++ [c]) false false false false isCL
            (decide (c = 92) && !pBS) := by
        unfold stepAfter
        rw [if_neg (by simp), if_neg (by simp), if_neg (by simp),
            if_neg (by simp), if_pos ⟨hc10, hc13⟩]
        rfl
      rw [hstep,
          ih rem ex (acc ++ [c]) isCL (decide (c = 92) && !pBS) f1 fuel2
            (fun b hb => hu b (List.mem_cons_of_mem c hb))
            (by simp at h1 ⊢; omega) h2]
      simp [bsToggle]

/-- A terminator ending a comment line, or ending a line with nothing
accumulated, discards the line and restarts (lines 302-310). -/
theorem readLineLoop_eol_reset (f : Nat) (e : Nat) (rem : List Nat) (ex : Bool)
    (acc : List Nat) (aLB isNL isCL pBS : Bool) (he : e = 10 ∨ e = 13)
    (hreset : isCL = true ∨ acc = []) :
    readLineLoop (f + 1) [] (e :: rem) ex acc false false aLB isNL isCL pBS =
      readLineLoop f [] rem ex [] false true aLB true false pBS := by
  rw [readLineLoop_next f [] (e :: rem) ex acc false false aLB isNL isCL pBS
      e [] rem rfl]
  unfold stepAfter
  rcases he with rfl | rfl <;>
    rw [if_neg (by simp), if_neg (by simp), if_neg (by simp), if_neg (by simp),
        if_neg (by simp), if_pos hreset] <;>
    rfl

/-- A terminator ending a non-comment, non-empty line whose backslash
toggle is clear completes the logical line (line 333, or lines 311-317
at end of input). -/
theorem readLineLoop_eol_return (f : Nat) (e : Nat) (rem : List Nat) (ex : Bool)
    (acc : List Nat) (aLB isNL : Bool) (he : e = 10 ∨ e = 13) (hacc : acc ≠ []) :
    (readLineLoop (f + 1) [] (e :: rem) ex acc false false aLB isNL false false).1 =
      .line acc := by
  rw [readLineLoop_next f [] (e :: rem) ex acc false false aLB isNL false false
      e [] rem rfl]
  unfold stepAfter
  rcases he with rfl | rfl <;>
    [skip; skip] <;>
    rw [if_neg (by simp), if_neg (by simp), if_neg (by simp), if_neg (by simp),
        if_neg (by simp), if_neg (by simp [hacc])] <;>
    cases hr : refill2 [] rem ex <;> rfl

/-- The same completion from the whitespace-skipping state of a
continuation line (`appendedLineBegin` set, so the terminator is not
treated as a blank line). -/
theorem readLineLoop_eol_return_ws (f : Nat) (e : Nat) (rem : List Nat) (ex : Bool)
    (acc : List Nat) (isNL : Bool) (he : e = 10 ∨ e = 13) (hacc : acc ≠ []) :
    (readLineLoop (f + 1) [] (e :: rem) ex acc false true true isNL false false).1 =
      .line acc := by
  rw [readLineLoop_next f [] (e :: rem) ex acc false true true isNL false false
      e [] rem rfl]
  unfold stepAfter
  rcases he with rfl | rfl <;>
    [skip; skip] <;>
    rw [if_neg (by simp), if_neg (by simp), if_neg (by simp), if_neg (by simp),
        if_neg (by simp), if_neg (by simp [hacc])] <;>
    cases hr : refill2 [] rem ex <;> rfl

/-- A terminator ending a non-comment, non-empty line whose backslash
toggle is set, with input remaining, starts a continuation: the trailing
backslash is dropped and leading whitespace of the next line will be
skipped (lines 323-331). -/
theorem readLineLoop_eol_continue (f : Nat) (e : Nat) (rem : List Nat) (ex : Bool)
    (acc : List Nat) (aLB isNL : Bool) (he : e = 10 ∨ e = 13)
    (hacc : acc ≠ []) (hrem : rem ≠ []) :
    readLineLoop (f + 1) [] (e :: rem) ex acc false false aLB isNL false true =
      readLineLoop f [] rem ex acc.dropLast (decide (e = 13)) true true false
        false false := by
  obtain ⟨r0, rrest, rfl⟩ := List.exists_cons_of_ne_nil hrem
  rw [readLineLoop_next f [] (e :: r0 :: rrest) ex acc false false aLB isNL false true
      e [] (r0 :: rrest) rfl]
  unfold stepAfter
  rcases he with rfl | rfl <;>
    [skip; skip] <;>
    rw [if_neg (by simp), if_neg (by simp), if_neg (by simp), if_neg (by simp),
        if_neg (by simp), if_neg (by simp [hacc])] <;>
    rfl

/-- The fuel of the load loop is irrelevant above the reader measure. -/
theorem loadLoop_congr (f1 : Nat) : ∀ (f2 : Nat) (lr : LR) (props : PropMap),
    lrM2 lr < f1 → lrM2 lr < f2 →
    loadLoop f1 lr props = loadLoop f2 lr props := by
  induction f1 with
  | zero =>
    intro f2 lr props h1 _
    omega
  | succ f1p ih =>
    intro f2 lr props h1 h2
    cases f2 with
    | zero => omega
    | succ f2p =>
      simp only [loadLoop]
      cases hr : readLine lr with
      | mk res lr2 =>
        cases res with
        | eof => rfl
        | line s =>
          dsimp only
          have hm := readLine_m2 lr s lr2 hr
          cases processLine props s with
          | ok props2 =>
            exact ih f2p lr2 props2 (by omega) (by omega)
          | errored => rfl
          | panicked => rfl

/-- Two inputs whose readers agree on the first `readLine` call load
identically: the rest of the loop runs from the same reader state. -/
theorem Load_eq_of_readLine_eq (A B : List Nat)
    (h : readLine (initLR A) = readLine (initLR B)) : Load A = Load B := by
  unfold Load
  simp only [loadLoop]
  rw [h]
  cases hr : readLine (initLR B) with
  | mk res lr2 =>
    cases res with
    | eof => rfl
    | line s =>
      dsimp only
      have hmA : lrM2 lr2 < lrM2 (initLR A) := readLine_m2 (initLR A) s lr2 (h.trans hr)
      have hmB : lrM2 lr2 < lrM2 (initLR B) := readLine_m2 (initLR B) s lr2 hr
      cases processLine [] s with
      | ok props2 =>
        exact loadLoop_congr (lrM2 (initLR A)) (lrM2 (initLR B)) lr2 props2
          hmA hmB
      | errored => rfl
      | panicked => rfl

/-- In comment mode with no terminator among the remaining bytes, the
call consumes everything and signals `io.EOF` (lines 242-254 at the
refill, regardless of where refill boundaries fall). -/
theorem readLineLoop_comment_eof (fuel : Nat) : ∀ (input bufRest : List Nat)
    (ex : Bool) (acc : List Nat) (aLB pBS : Bool),
    (∀ b ∈ bufRest ++ input, b ≠ 10 ∧ b ≠ 13) →
    input.length + bufRest.length < fuel →
    (readLineLoop fuel input bufRest ex acc false false aLB false true pBS).1 =
      .eof := by
  induction fuel with
  | zero =>
    intro input bufRest ex acc aLB pBS _ h
    omega
  | succ f ih =>
    intro input bufRest ex acc aLB pBS hb h
    cases hr : refill1 input bufRest ex acc true with
    | done r =>
      have hdone : readLineLoop (f + 1) input bufRest ex acc false false aLB
          false true pBS = r := by
        simp only [readLineLoop]
        rw [hr]
      rw [hdone]
      exact refill1_done_comment input bufRest ex acc r hr
    | next c input2 bufRest2 =>
      rw [readLineLoop_next f input bufRest ex acc false false aLB false true pBS
          c input2 bufRest2 hr]
      have hbytes := refill1_next_bytes input bufRest ex acc true c input2 bufRest2 hr
      have hc : c ≠ 10 ∧ c ≠ 13 := by
        apply hb c
        rw [hbytes]
        exact List.mem_cons_self _ _
      have hlen : input2.length + bufRest2.length < f := by
        have := congrArg List.length hbytes
        simp only [List.length_append, List.length_cons] at this
        omega
      unfold stepAfter
      rw [if_neg (by simp), if_neg (by simp), if_neg (by simp), if_neg (by simp),
          if_pos hc]
      exact ih input2 bufRest2 ex (acc ++ [c]) _ (decide (c = 92) && !pBS)
        (fun b hb2 => hb b (by rw [hbytes]; exact List.mem_cons_of_mem c hb2))
        hlen

set_option maxRecDepth 8192 in
/-- C5, counterexample: the physical line `\\` ends in an even number of
backslashes immediately before its terminator, so by the claim it must be
returned as a complete logical line without continuation.  After the
comment line `#\` the stale `precedingBackslash` toggle (set by the
comment's bytes, not cleared at the line-discarding reset of lines
304-310) makes the reader treat `\\` as continued: the input
`#\`, `\\`, `y=1` produces the single logical line `\y=1` (and the
mapping `{y: 1}`), where the same bytes without the comment line produce
the two logical lines `\\` and `y=1`. -/
theorem c5_even_backslashes_can_continue :
    trailingBackslashes [92, 92] % 2 = 0 ∧
    linesOf [35, 92, 10, 92, 92, 10, 121, 61, 49, 10] = [[92, 121, 61, 49]] ∧
    linesOf [92, 92, 10, 121, 61, 49, 10] = [[92, 92], [121, 61, 49]] ∧
    Load [35, 92, 10, 92, 92, 10, 121, 61, 49, 10] = .ok [([121], [49])] :=
  ⟨by decide, by decide, by decide, by decide⟩

/-- C5, amended: the continuation rule as claimed holds whenever the
backslash toggle is clean when the line starts — in particular for the
first logical line of the input (no preceding comment line has left a
stale toggle, the defect shown by the counterexample).  For a first
physical line `c :: ut` (head not whitespace and not a comment marker,
no terminators inside) within one raw-buffer refill: if its trailing
backslash run is odd, readLine drops the final backslash, discards the
following line's leading whitespace `w`, and appends the rest `x` of
that line (itself ending in an even run); if the run is even, the line
is returned as is, without continuation. -/
theorem c5_backslash_continuation_for_clean_toggle
    (c : Nat) (ut w x v : List Nat)
    (hc : c ≠ 32 ∧ c ≠ 9 ∧ c ≠ 12 ∧ c ≠ 35 ∧ c ≠ 33)
    (hu : ∀ b ∈ c :: ut, b ≠ 10 ∧ b ≠ 13)
    (hx : ∀ b ∈ x, b ≠ 10 ∧ b ≠ 13)
    (hxh : ∀ x0 xt, x = x0 :: xt → x0 ≠ 32 ∧ x0 ≠ 9 ∧ x0 ≠ 12)
    (hw : ∀ b ∈ w, b = 32 ∨ b = 9 ∨ b = 12) :
    (trailingBackslashes (c :: ut) % 2 = 1 →
      trailingBackslashes x % 2 = 0 →
      ((c :: ut) ++ 10 :: (w ++ (x ++ 10 :: v))).length < bufCap →
      (c :: ut).dropLast ++ x ≠ [] →
      (readLine (initLR ((c :: ut) ++ 10 :: (w ++ (x ++ 10 :: v))))).1 =
        .line ((c :: ut).dropLast ++ x)) ∧
    (trailingBackslashes (c :: ut) % 2 = 0 →
      ((c :: ut) ++ 10 :: v).length < bufCap →
      (readLine (initLR ((c :: ut) ++ 10 :: v))).1 = .line (c :: ut)) := by
  obtain ⟨hc32, hc9, hc12, hc35, hc33⟩ := hc
  obtain ⟨hc10, hc13⟩ := hu c (List.mem_cons_self c ut)
  have hut : ∀ b ∈ ut, b ≠ 10 ∧ b ≠ 13 := fun b hb => hu b (List.mem_cons_of_mem c hb)
  have htog : bsToggle (decide (c = 92) && !false) ut =
      (trailingBackslashes (c :: ut) % 2 == 1) := by
    rw [← bsToggle_false_eq_parity]
    rfl
  have h11 : ((1 : Nat) % 2 == 1) = true := rfl
  have h01 : ((0 : Nat) % 2 == 1) = false := rfl
  have hsing : [c] ++ ut = c :: ut := List.singleton_append
  have h1013 : (decide ((10 : Nat) = 13)) = false := rfl
  constructor
  · -- odd run: continuation
    intro hodd hxe hcap hne
    have hstart : readLine (initLR ((c :: ut) ++ 10 :: (w ++ (x ++ 10 :: v)))) =
        readLineLoop (lrMeasure (initLR ((c :: ut) ++ 10 :: (w ++ (x ++ 10 :: v)))) + 1)
          ((c :: ut) ++ 10 :: (w ++ (x ++ 10 :: v))) [] false []
          false true false true false false := rfl
    rw [hstart,
        readLineLoop_entry
          (lrMeasure (initLR ((c :: ut) ++ 10 :: (w ++ (x ++ 10 :: v)))) + 1)
          ((ut.length + (w.length + (x.length + v.length)) + 4) + 1)
          ((c :: ut) ++ 10 :: (w ++ (x ++ 10 :: v))) false []
          false true false true false hcap
          (by simp [lrMeasure, initLR]) (by simp; omega),
        List.cons_append,
        readLineLoop_step_first (ut.length + (w.length + (x.length + v.length)) + 4)
          c (ut ++ 10 :: (w ++ (x ++ 10 :: v))) false [] false true false false
          hc32 hc9 hc12 hc10 hc13 (fun _ => ⟨hc35, hc33⟩),
        List.nil_append,
        readLineLoop_content ut (10 :: (w ++ (x ++ 10 :: v))) false [c] false
          (decide (c = 92) && !false)
          (ut.length + (w.length + (x.length + v.length)) + 4)
          ((w.length + (x.length + v.length) + 2) + 1)
          hut (by simp; omega) (by simp; omega),
        htog, hodd, h11, hsing,
        readLineLoop_eol_continue (w.length + (x.length + v.length) + 2) 10
          (w ++ (x ++ 10 :: v)) false (c :: ut) false false (Or.inl rfl)
          (by simp) (by simp),
        h1013]
    cases x with
    | nil =>
      simp only [List.nil_append, List.append_nil, List.length_nil] at hne ⊢
      rw [readLineLoop_skip_ws w (10 :: v) false ((c :: ut).dropLast) true false
            false false (w.length + (0 + v.length) + 2) ((v.length + 1) + 1)
            hw (by simp; omega) (by simp)]
      exact readLineLoop_eol_return_ws (v.length + 1) 10 v false ((c :: ut).dropLast)
        false (Or.inl rfl) hne
    | cons x0 xt =>
      obtain ⟨hx032, hx09, hx012⟩ := hxh x0 xt rfl
      obtain ⟨hx010, hx013⟩ := hx x0 (List.mem_cons_self x0 xt)
      have hxt : ∀ b ∈ xt, b ≠ 10 ∧ b ≠ 13 :=
        fun b hb => hx b (List.mem_cons_of_mem x0 hb)
      have htog2 : bsToggle (decide (x0 = 92) && !false) xt =
          (trailingBackslashes (x0 :: xt) % 2 == 1) := by
        rw [← bsToggle_false_eq_parity]
        rfl
      have haccx : ((c :: ut).dropLast ++ [x0]) ++ xt =
          (c :: ut).dropLast ++ (x0 :: xt) := by simp
      rw [readLineLoop_skip_ws w ((x0 :: xt) ++ 10 :: v) false ((c :: ut).dropLast)
            true false false false
            (w.length + ((x0 :: xt).length + v.length) + 2)
            ((xt.length + v.length + 2) + 1)
            hw (by simp; omega) (by simp; omega),
          List.cons_append,
          readLineLoop_step_first (xt.length + v.length + 2) x0 (xt ++ 10 :: v)
            false ((c :: ut).dropLast) true false false false
            hx032 hx09 hx012 hx010 hx013 (fun h => absurd h (by decide)),
          readLineLoop_content xt (10 :: v) false ((c :: ut).dropLast ++ [x0]) false
            (decide (x0 = 92) && !false) (xt.length + v.length + 2)
            ((v.length + 1) + 1) hxt (by simp; omega) (by simp),
          htog2, hxe, h01, haccx]
      exact readLineLoop_eol_return (v.length + 1) 10 v false
        ((c :: ut).dropLast ++ (x0 :: xt)) false false (Or.inl rfl) hne
  · -- even run: the line is complete
    intro heven hcap
    have hstart : readLine (initLR ((c :: ut) ++ 10 :: v)) =
        readLineLoop (lrMeasure (initLR ((c :: ut) ++ 10 :: v)) + 1)
          ((c :: ut) ++ 10 :: v) [] false []
          false true false true false false := rfl
    rw [hstart,
        readLineLoop_entry (lrMeasure (initLR ((c :: ut) ++ 10 :: v)) + 1)
          ((ut.length + v.length + 2) + 1)
          ((c :: ut) ++ 10 :: v) false [] false true false true false hcap
          (by simp [lrMeasure, initLR]) (by simp; omega),
        List.cons_append,
        readLineLoop_step_first (ut.length + v.length + 2) c (ut ++ 10 :: v)
          false [] false true false false
          hc32 hc9 hc12 hc10 hc13 (fun _ => ⟨hc35, hc33⟩),
        List.nil_append,
        readLineLoop_content ut (10 :: v) false [c] false
          (decide (c = 92) && !false) (ut.length + v.length + 2)
          ((v.length + 1) + 1) hut (by simp; omega) (by simp),
        htog, heven, h01, hsing]
    exact readLineLoop_eol_return (v.length + 1) 10 v false (c :: ut) false false
      (Or.inl rfl) (by simp)

/-- Witness for the amended C5 theorem: `a\` continues onto ` b` giving
the logical line `ab`; the single line `k` is returned unchanged. -/
theorem c5_witness :
    (readLine (initLR ((97 :: [92]) ++ 10 :: ([32] ++ ([98] ++ 10 :: []))))).1 =
      .line ((97 :: [92]).dropLast ++ [98]) ∧
    (readLine (initLR ((107 :: []) ++ 10 :: []))).1 = .line (107 :: []) := by
  constructor
  · exact (c5_backslash_continuation_for_clean_toggle 97 [92] [32] [98] []
      (by decide) (by decide) (by decide)
      (by intro x0 xt h; injection h with h1 h2; subst h1; decide)
      (by decide)).1 (by decide) (by decide) (by decide) (by decide)
  · exact (c5_backslash_continuation_for_clean_toggle 107 [] [] [] []
      (by decide) (by decide) (by decide)
      (by intro x0 xt h; simp at h)
      (by decide)).2 (by decide) (by decide)

set_option maxRecDepth 8192 in
/-- C8, counterexample: the claim quantifies over every comment line in
every input, but a comment line whose content ends in an odd
backslash run does contribute to the following logical lines: the
stale `precedingBackslash` toggle it leaves behind (lines 290-310, not
cleared at the line-discarding reset) inverts the parity test of the
next line.  With the comment line `!\` present, the bytes `\\`,
`y=1` form the single logical line `\y=1` and Load gives `{y: 1}`;
with the comment line removed they form the two lines `\\` and `y=1`
and Load gives `{\: "", y: 1}` — the comment changed both the
logical lines and the key set. -/
theorem c8_comment_with_odd_backslashes_contributes :
    linesOf [33, 92, 10, 92, 92, 10, 121, 61, 49, 10] = [[92, 121, 61, 49]] ∧
    Load [33, 92, 10, 92, 92, 10, 121, 61, 49, 10] = .ok [([121], [49])] ∧
    linesOf [92, 92, 10, 121, 61, 49, 10] = [[92, 92], [121, 61, 49]] ∧
    Load [92, 92, 10, 121, 61, 49, 10] = .ok [([92], []), ([121], [49])] :=
  ⟨by decide, by decide, by decide, by decide⟩

/-- C8, amended: a comment line — optional blank bytes, then `#` or `!`,
then content with an even trailing-backslash run and a terminator —
within one raw-buffer refill contributes nothing: Load of the input
equals Load of the input with the whole comment line removed.  (The
even-run restriction is forced by the counterexample above; the
single-refill restriction by the defect recorded under C1.)  In comment mode the
reader never returns a line at end of input no matter how the remaining
bytes fall across refills, so an unterminated trailing comment yields
`io.EOF` and no final line.  A marker after the first non-blank byte of
a line is ordinary content: `a=#!` maps `a` to `#!`. -/
theorem c8_comments_contribute_nothing :
    (∀ (m : Nat) (w u r : List Nat), m = 35 ∨ m = 33 →
      (∀ b ∈ w, b = 32 ∨ b = 9 ∨ b = 12 ∨ b = 13 ∨ b = 10) →
      (∀ b ∈ u, b ≠ 10 ∧ b ≠ 13) →
      trailingBackslashes u % 2 = 0 →
      (w ++ m :: (u ++ 10 :: r)).length < bufCap →
      Load (w ++ m :: (u ++ 10 :: r)) = Load r) ∧
    (∀ (fuel : Nat) (input bufRest : List Nat) (ex : Bool) (acc : List Nat)
        (aLB pBS : Bool),
      (∀ b ∈ bufRest ++ input, b ≠ 10 ∧ b ≠ 13) →
      input.length + bufRest.length < fuel →
      (readLineLoop fuel input bufRest ex acc false false aLB false true pBS).1 =
        .eof) ∧
    Load [97, 61, 35, 33, 10] = .ok [([97], [35, 33])] := by
  refine ⟨?_, fun fuel input bufRest ex acc aLB pBS =>
    readLineLoop_comment_eof fuel input bufRest ex acc aLB pBS, by decide⟩
  intro m w u r hm hw hu hue hcap
  apply Load_eq_of_readLine_eq
  have hrcap : r.length < bufCap := by simp at hcap; omega
  have h01 : ((0 : Nat) % 2 == 1) = false := rfl
  have hstartA : readLine (initLR (w ++ m :: (u ++ 10 :: r))) =
      readLineLoop (lrMeasure (initLR (w ++ m :: (u ++ 10 :: r))) + 1)
        (w ++ m :: (u ++ 10 :: r)) [] false [] false true false true false
        false := rfl
  have hstartB : readLine (initLR r) =
      readLineLoop (lrMeasure (initLR r) + 1) r [] false [] false true false true
        false false := rfl
  rw [hstartA, hstartB,
      readLineLoop_entry (lrMeasure (initLR (w ++ m :: (u ++ 10 :: r))) + 1)
        ((w.length + (u.length + r.length) + 3) + 1)
        (w ++ m :: (u ++ 10 :: r)) false [] false true false true false hcap
        (by simp [lrMeasure, initLR]) (by simp; omega),
      readLineLoop_skip_blank w (m :: (u ++ 10 :: r)) false [] true false false
        ((w.length + (u.length + r.length) + 3) + 1)
        ((u.length + r.length + 2) + 1)
        hw (by simp; omega) (by simp; omega),
      readLineLoop_step_comment (u.length + r.length + 2) m (u ++ 10 :: r) false []
        false false false hm,
      readLineLoop_content u (10 :: r) false [] true false
        (u.length + r.length + 2) ((r.length + 1) + 1)
        hu (by simp; omega) (by simp),
      List.nil_append, bsToggle_false_eq_parity, hue, h01,
      readLineLoop_eol_reset (r.length + 1) 10 r false u false false true false
        (Or.inl rfl) (Or.inl rfl),
      readLineLoop_entry (lrMeasure (initLR r) + 1) (r.length + 1) r false []
        false true false true false hrcap
        (by simp [lrMeasure, initLR]) (by simp)]

/-- Witness for C8: the comment line ` #x` drops out of `Load`, a
comment state at end of input reads `io.EOF`, and `a=#!` stores `#!`. -/
theorem c8_witness :
    Load ([32] ++ 35 :: ([120] ++ 10 :: [107, 61, 118, 10])) =
      Load [107, 61, 118, 10] ∧
    (readLineLoop 3 [] [35, 97] false [] false false false false true false).1 =
      .eof := by
  constructor
  · exact c8_comments_contribute_nothing.1 35 [32] [120] [107, 61, 118, 10]
      (Or.inl rfl) (by decide) (by decide) (by decide) (by decide)
  · exact c8_comments_contribute_nothing.2.1 3 [] [35, 97] false [] false false
      (by decide) (by decide)
